import Mathlib

/-!
Verification of the pairwise / progressive alignment core of
`custom_msa.py` (functions `needleman_wunsch`, `propagate_gaps_to_msa`,
`msa`), embedded shallowly: sequences are `List Char`, scores are `Int`,
Python exceptions are modelled by `Option` (`none` = the call raises).
-/

namespace CustomMsa

/-- One row of the Needleman-Wunsch DP table, built from the previous row
`f` (the table restricted to row `i`), the character `c = seq1[i]`, and the
value `base = (i+1) * gap` that the source's initialization loop stores at
column 0.  `nwRow ... j` is `dp[i+1][j]` of the source: for `j ≥ 1` it is
`max(dp[i][j-1] + matchScore, dp[i][j] + gap, dp[i+1][j-1] + gap)`, the
source's `max(dp[i-1][j-1] + match_score, dp[i-1][j] + gap, dp[i][j-1] + gap)`. -/
def nwRow (mt mis gp : Int) (s2 : List Char) (f : Nat → Int) (c : Char)
    (base : Int) : Nat → Int
  | 0 => base
  | j+1 =>
      max (max (f j + (if c = s2.getD j ' ' then mt else mis))
               (f (j+1) + gp))
          (nwRow mt mis gp s2 f c base j + gp)

/-- The DP table of `needleman_wunsch(seq1, seq2, match, mismatch, gap)`:
`dp mt mis gp s1 s2 i j` is the source's `dp[i][j]`.  Row 0 is the
initialization `dp[0][j] = j * gap`; row `i+1` is filled from row `i` by
`nwRow`, whose column 0 is the initialization `dp[i+1][0] = (i+1) * gap`
and whose columns `j ≥ 1` are the source's recurrence with
`match_score = match if seq1[i] == seq2[j-1] else mismatch`. -/
def dp (mt mis gp : Int) (s1 s2 : List Char) : Nat → Nat → Int
  | 0 => fun j => (j : Int) * gp
  | i+1 => nwRow mt mis gp s2 (dp mt mis gp s1 s2 i) (s1.getD i ' ')
      (((i : Int) + 1) * gp)

/-- Traceback along row 0 of the table: at `(0, j)` the source's two guarded
branches are disabled (`i > 0` fails), so the final `else` runs `j` times,
prepending `-` to `aligned_seq1` and `seq2[j-1]` to `aligned_seq2`.
Since the loop prepends, the step at the larger index contributes the later
character: we append on the right while recursing downward. -/
def tb0 (s2 : List Char) : Nat → Option (List Char × List Char)
  | 0 => some ([], [])
  | j+1 => (tb0 s2 j).map (fun p => (p.1 ++ ['-'], p.2 ++ [s2.getD j ' ']))

/-- Traceback step on row `i+1` of the table (`prev` is the traceback from
row `i`).  At `(i+1, 0)` the diagonal guard fails (`j > 0` is false) and the
`elif` tests `dp[i+1][0] == dp[i][0] + gap`; were that false, the source's
final `else` would read `seq2[-1]` and decrement `j` below zero, so that
branch is modelled as `none`.  At `(i+1, j+1)` the three branches are the
source's: diagonal if it reconstructs `dp[i][j]` via the match/mismatch
term, else up (gap in `seq2`) if via `dp[i-1][j] + gap`, else left
(gap in `seq1`, reading `seq2[j-1]`, which needs `j > 0`). -/
def tbRow (mt mis gp : Int) (s1 s2 : List Char)
    (prev : Nat → Option (List Char × List Char)) (i : Nat) :
    Nat → Option (List Char × List Char)
  | 0 =>
      if dp mt mis gp s1 s2 (i+1) 0 = dp mt mis gp s1 s2 i 0 + gp then
        (prev 0).map (fun p => (p.1 ++ [s1.getD i ' '], p.2 ++ ['-']))
      else none
  | j+1 =>
      if dp mt mis gp s1 s2 (i+1) (j+1) =
          dp mt mis gp s1 s2 i j +
            (if s1.getD i ' ' = s2.getD j ' ' then mt else mis) then
        (prev j).map (fun p => (p.1 ++ [s1.getD i ' '], p.2 ++ [s2.getD j ' ']))
      else if dp mt mis gp s1 s2 (i+1) (j+1) = dp mt mis gp s1 s2 i (j+1) + gp then
        (prev (j+1)).map (fun p => (p.1 ++ [s1.getD i ' '], p.2 ++ ['-']))
      else
        (tbRow mt mis gp s1 s2 prev i j).map
          (fun p => (p.1 ++ ['-'], p.2 ++ [s2.getD j ' ']))

/-- The source's traceback loop started at `(i, j)`: returns the pair
`(aligned_seq1, aligned_seq2)`, or `none` where the Python loop would
misbehave (see `tbRow`). -/
def traceback (mt mis gp : Int) (s1 s2 : List Char) :
    Nat → Nat → Option (List Char × List Char)
  | 0 => tb0 s2
  | i+1 => tbRow mt mis gp s1 s2 (traceback mt mis gp s1 s2 i) i

/-- `needleman_wunsch(seq1, seq2, match, mismatch, gap)`: builds the DP
table, runs the traceback from `(m, n)`, and returns
`(dp[m][n], aligned_seq1, aligned_seq2)`. -/
def needleman_wunsch (s1 s2 : List Char) (mt mis gp : Int) :
    Option (Int × List Char × List Char) :=
  (traceback mt mis gp s1 s2 s1.length s2.length).map
    (fun p => (dp mt mis gp s1 s2 s1.length s2.length, p.1, p.2))

/-- Python's `s[:i] + "-" + s[i:]`: insert one gap symbol at position `i`
(appending at the end when `i ≥ len(s)`, as Python slicing does). -/
def insertAt (s : List Char) (i : Nat) : List Char :=
  s.take i ++ '-' :: s.drop i

/-- The inner loop of `propagate_gaps_to_msa`:
`for j in range(len(msa)): if j != seq_index: msa[j] = msa[j][:i] + "-" + msa[j][i:]`.
`j` is the index of the first row of the remaining block. -/
def updateOthers (i idx : Nat) : Nat → List (List Char) → List (List Char)
  | _, [] => []
  | j, r :: rs =>
      (if j = idx then r else insertAt r i) :: updateOthers i idx (j+1) rs

/-- The outer loop of `propagate_gaps_to_msa` over the positions `is` of
`aligned_seq` (the source's `for i, char in enumerate(aligned_seq)`): at
each position holding a gap, insert a gap into every row other than `idx`. -/
def propagateAux (al : List Char) (idx : Nat) :
    List Nat → List (List Char) → List (List Char)
  | [], b => b
  | i :: is, b =>
      propagateAux al idx is
        (if al.getD i ' ' = '-' then updateOthers i idx 0 b else b)

/-- `propagate_gaps_to_msa(msa, aligned_seq, seq_index)`: scan `aligned_seq`
left to right; at every gap position insert a gap into each other row; then
`msa[seq_index] = aligned_seq`. -/
def propagate_gaps_to_msa (block : List (List Char)) (al : List Char)
    (idx : Nat) : List (List Char) :=
  (propagateAux al idx (List.range al.length) block).set idx al

/-- One iteration of the progressive loop in `msa`: align the current first
row against the next sequence, propagate the gaps of the aligned first row
into the block, and append the newly aligned sequence as the last row.
(`msa_result[0]` is modelled by `headD []`; in `msa` the block is never
empty.) -/
def msaStep (mt mis gp : Int) (block : List (List Char)) (sq : List Char) :
    Option (List (List Char)) :=
  (needleman_wunsch (block.headD []) sq mt mis gp).map
    (fun r => propagate_gaps_to_msa block r.2.1 0 ++ [r.2.2])

/-- Python's `seq.ljust(w, "-")`: pad on the right with gaps up to width
`w` (no-op when the row is already at least that long). -/
def ljust (s : List Char) (w : Nat) : List Char :=
  s ++ List.replicate (w - s.length) '-'

/-- The score component of `needleman_wunsch(s1, s2, ...)`, i.e.
`dp[m][n]` (the first element of the returned triple). -/
def nwScore (mt mis gp : Int) (s1 s2 : List Char) : Int :=
  dp mt mis gp s1 s2 s1.length s2.length

/-- The final scoring loop of `msa`: for every pair `i < j` of rows,
re-align rows `i` and `j` from scratch and sum the returned scores. -/
def sumPairScores (mt mis gp : Int) : List (List Char) → Int
  | [] => 0
  | r :: rs =>
      (rs.map (fun r2 => nwScore mt mis gp r r2)).sum
        + sumPairScores mt mis gp rs

/-- `msa(sequences, match, mismatch, gap)`: seeds the block with
`sequences[0]` (an empty input list raises `IndexError`, modelled `none`),
runs the progressive loop over the remaining sequences, pads every row with
gaps up to the maximum row length (`max(len(seq) for seq in msa_result)`,
here `foldl max 0`, equal to Python's `max` on the nonempty block), and
returns the summed pairwise re-alignment score with the padded block. -/
def msa (sequences : List (List Char)) (mt mis gp : Int) :
    Option (Int × List (List Char)) :=
  match sequences with
  | [] => none
  | s0 :: rest =>
      (rest.foldlM (fun b sq => msaStep mt mis gp b sq) [s0]).map
        (fun block =>
          let maxLen := (block.map List.length).foldl max 0
          let padded := block.map (fun r => ljust r maxLen)
          (sumPairScores mt mis gp padded, padded))

/-- One column of a global alignment: both sequences contribute a symbol,
or the first contributes a symbol against a gap in the second (`gapB`), or
the second against a gap in the first (`gapA`). -/
inductive Col where
  | both : Char → Char → Col
  | gapB : Char → Col
  | gapA : Char → Col

/-- The symbols of the first sequence read off a column list. -/
def projA : List Col → List Char
  | [] => []
  | Col.both a _ :: cs => a :: projA cs
  | Col.gapB a :: cs => a :: projA cs
  | Col.gapA _ :: cs => projA cs

/-- The symbols of the second sequence read off a column list. -/
def projB : List Col → List Char
  | [] => []
  | Col.both _ b :: cs => b :: projB cs
  | Col.gapB _ :: cs => projB cs
  | Col.gapA b :: cs => b :: projB cs

/-- The score of an alignment: match/mismatch per two-symbol column, the
gap penalty per gap column (linear gap cost). -/
def colScore (mt mis gp : Int) : List Col → Int
  | [] => 0
  | Col.both a b :: cs => (if a = b then mt else mis) + colScore mt mis gp cs
  | Col.gapB _ :: cs => gp + colScore mt mis gp cs
  | Col.gapA _ :: cs => gp + colScore mt mis gp cs

/-- The set of scores of global alignments of `A` against `B`. -/
def alignScores (mt mis gp : Int) (A B : List Char) : Set Int :=
  {x | ∃ cs : List Col, projA cs = A ∧ projB cs = B ∧ colScore mt mis gp cs = x}

/-- Delete every gap symbol from a sequence. -/
def removeGaps (l : List Char) : List Char :=
  l.filter (fun c => c != '-')

end CustomMsa

namespace CustomMsa

theorem dp_zero (mt mis gp : Int) (s1 s2 : List Char) (j : Nat) :
    dp mt mis gp s1 s2 0 j = (j : Int) * gp := rfl

theorem dp_succ_zero (mt mis gp : Int) (s1 s2 : List Char) (i : Nat) :
    dp mt mis gp s1 s2 (i+1) 0 = ((i : Int) + 1) * gp := rfl

theorem dp_i_zero (mt mis gp : Int) (s1 s2 : List Char) (i : Nat) :
    dp mt mis gp s1 s2 i 0 = (i : Int) * gp := by
  cases i with
  | zero => simp [dp]
  | succ i => rw [dp_succ_zero]; push_cast; ring

theorem dp_succ_succ (mt mis gp : Int) (s1 s2 : List Char) (i j : Nat) :
    dp mt mis gp s1 s2 (i+1) (j+1) =
      max (max (dp mt mis gp s1 s2 i j +
                 (if s1.getD i ' ' = s2.getD j ' ' then mt else mis))
               (dp mt mis gp s1 s2 i (j+1) + gp))
          (dp mt mis gp s1 s2 (i+1) j + gp) := rfl

theorem dp_diag_le (mt mis gp : Int) (s1 s2 : List Char) (i j : Nat) :
    dp mt mis gp s1 s2 i j + (if s1.getD i ' ' = s2.getD j ' ' then mt else mis)
      ≤ dp mt mis gp s1 s2 (i+1) (j+1) := by
  rw [dp_succ_succ]
  exact le_trans (le_max_left _ _) (le_max_left _ _)

theorem dp_up_le (mt mis gp : Int) (s1 s2 : List Char) (i j : Nat) :
    dp mt mis gp s1 s2 i (j+1) + gp ≤ dp mt mis gp s1 s2 (i+1) (j+1) := by
  rw [dp_succ_succ]
  exact le_trans (le_max_right _ _) (le_max_left _ _)

theorem dp_left_le (mt mis gp : Int) (s1 s2 : List Char) (i j : Nat) :
    dp mt mis gp s1 s2 (i+1) j + gp ≤ dp mt mis gp s1 s2 (i+1) (j+1) := by
  rw [dp_succ_succ]
  exact le_max_right _ _

theorem dp_gapB_le (mt mis gp : Int) (s1 s2 : List Char) (i j : Nat) :
    dp mt mis gp s1 s2 i j + gp ≤ dp mt mis gp s1 s2 (i+1) j := by
  cases j with
  | zero =>
      rw [dp_i_zero, dp_succ_zero]
      apply le_of_eq; ring
  | succ j => exact dp_up_le mt mis gp s1 s2 i j

theorem dp_gapA_le (mt mis gp : Int) (s1 s2 : List Char) (i j : Nat) :
    dp mt mis gp s1 s2 i j + gp ≤ dp mt mis gp s1 s2 i (j+1) := by
  cases i with
  | zero =>
      rw [dp_zero, dp_zero]
      apply le_of_eq; push_cast; ring
  | succ i => exact dp_left_le mt mis gp s1 s2 i j

theorem take_succ_getD {α : Type} (l : List α) (d : α) (n : Nat)
    (h : n < l.length) :
    l.take (n+1) = l.take n ++ [l.getD n d] := by
  rw [List.take_succ, List.getElem?_eq_getElem h, List.getD_eq_getElem l d h]
  rfl

theorem concat_inj {α : Type} {xs ys : List α} {x y : α}
    (h : xs ++ [x] = ys ++ [y]) : xs = ys ∧ x = y := by
  have hl : xs.length = ys.length := by
    have := congrArg List.length h
    simpa using this
  obtain ⟨h1, h2⟩ := List.append_inj h hl
  exact ⟨h1, by simpa using h2⟩

theorem getD_mem {α : Type} (l : List α) (d : α) (n : Nat) (h : n < l.length) :
    l.getD n d ∈ l := by
  rw [List.getD_eq_getElem l d h]
  exact List.getElem_mem h

theorem projA_append (xs ys : List Col) :
    projA (xs ++ ys) = projA xs ++ projA ys := by
  induction xs with
  | nil => rfl
  | cons c cs ih => cases c <;> simp [projA, ih]

theorem projB_append (xs ys : List Col) :
    projB (xs ++ ys) = projB xs ++ projB ys := by
  induction xs with
  | nil => rfl
  | cons c cs ih => cases c <;> simp [projB, ih]

theorem colScore_append (mt mis gp : Int) (xs ys : List Col) :
    colScore mt mis gp (xs ++ ys) = colScore mt mis gp xs + colScore mt mis gp ys := by
  induction xs with
  | nil => simp [colScore]
  | cons c cs ih => cases c <;> simp [colScore, ih] <;> ring

theorem colScore_le_dp (mt mis gp : Int) (s1 s2 : List Char) :
    ∀ cs : List Col, ∀ i j, i ≤ s1.length → j ≤ s2.length →
      projA cs = s1.take i → projB cs = s2.take j →
      colScore mt mis gp cs ≤ dp mt mis gp s1 s2 i j := by
  intro cs
  induction cs using List.reverseRecOn with
  | nil =>
      intro i j hi hj hA hB
      have hi0 : i = 0 := by
        rcases List.take_eq_nil_iff.mp hA.symm with h | h
        · exact h
        · rw [h] at hi; simpa using hi
      have hj0 : j = 0 := by
        rcases List.take_eq_nil_iff.mp hB.symm with h | h
        · exact h
        · rw [h] at hj; simpa using hj
      subst hi0; subst hj0
      simp [colScore, dp]
  | append_singleton ds c ih =>
      intro i j hi hj hA hB
      cases c with
      | both a b =>
          rw [projA_append] at hA
          rw [projB_append] at hB
          cases i with
          | zero => simp [projA] at hA
          | succ i =>
            cases j with
            | zero => simp [projB] at hB
            | succ j =>
              have hilt : i < s1.length := by omega
              have hjlt : j < s2.length := by omega
              rw [take_succ_getD s1 ' ' i hilt] at hA
              rw [take_succ_getD s2 ' ' j hjlt] at hB
              obtain ⟨hA1, hA2⟩ := concat_inj (by simpa only [projA] using hA)
              obtain ⟨hB1, hB2⟩ := concat_inj (by simpa only [projB] using hB)
              have hds := ih i j (by omega) (by omega) hA1 hB1
              calc colScore mt mis gp (ds ++ [Col.both a b])
                  = colScore mt mis gp ds + (if a = b then mt else mis) := by
                    rw [colScore_append]; simp [colScore]
                _ ≤ dp mt mis gp s1 s2 i j + (if a = b then mt else mis) := by
                    exact add_le_add_right hds _
                _ ≤ dp mt mis gp s1 s2 (i+1) (j+1) := by
                    rw [hA2, hB2]; exact dp_diag_le mt mis gp s1 s2 i j
      | gapB a =>
          rw [projA_append] at hA
          rw [projB_append] at hB
          simp only [projB, List.append_nil] at hB
          cases i with
          | zero => simp [projA] at hA
          | succ i =>
            have hilt : i < s1.length := by omega
            rw [take_succ_getD s1 ' ' i hilt] at hA
            obtain ⟨hA1, _⟩ := concat_inj (by simpa only [projA] using hA)
            have hds := ih i j (by omega) hj hA1 hB
            calc colScore mt mis gp (ds ++ [Col.gapB a])
                = colScore mt mis gp ds + gp := by
                  rw [colScore_append]; simp [colScore]
              _ ≤ dp mt mis gp s1 s2 i j + gp := add_le_add_right hds _
              _ ≤ dp mt mis gp s1 s2 (i+1) j := dp_gapB_le mt mis gp s1 s2 i j
      | gapA b =>
          rw [projA_append] at hA
          rw [projB_append] at hB
          simp only [projA, List.append_nil] at hA
          cases j with
          | zero => simp [projB] at hB
          | succ j =>
            have hjlt : j < s2.length := by omega
            rw [take_succ_getD s2 ' ' j hjlt] at hB
            obtain ⟨hB1, _⟩ := concat_inj (by simpa only [projB] using hB)
            have hds := ih i j hi (by omega) hA hB1
            calc colScore mt mis gp (ds ++ [Col.gapA b])
                = colScore mt mis gp ds + gp := by
                  rw [colScore_append]; simp [colScore]
              _ ≤ dp mt mis gp s1 s2 i j + gp := add_le_add_right hds _
              _ ≤ dp mt mis gp s1 s2 i (j+1) := dp_gapA_le mt mis gp s1 s2 i j

theorem dp_mem_alignScores (mt mis gp : Int) (s1 s2 : List Char) :
    ∀ i j, i ≤ s1.length → j ≤ s2.length →
      ∃ cs : List Col, projA cs = s1.take i ∧ projB cs = s2.take j ∧
        colScore mt mis gp cs = dp mt mis gp s1 s2 i j := by
  intro i
  induction i with
  | zero =>
      intro j
      induction j with
      | zero =>
          intro _ _
          exact ⟨[], by simp [projA], by simp [projB], by simp [colScore, dp]⟩
      | succ j ihj =>
          intro h0 hj
          obtain ⟨cs, hA, hB, hs⟩ := ihj h0 (by omega)
          refine ⟨cs ++ [Col.gapA (s2.getD j ' ')], ?_, ?_, ?_⟩
          · rw [projA_append]; simpa [projA] using hA
          · rw [projB_append, take_succ_getD s2 ' ' j (by omega)]
            simp [projB, hB]
          · rw [colScore_append, hs]
            simp only [colScore, dp_zero]
            push_cast; ring
  | succ i ihi =>
      intro j
      induction j with
      | zero =>
          intro hi _
          obtain ⟨cs, hA, hB, hs⟩ := ihi 0 (by omega) (by omega)
          refine ⟨cs ++ [Col.gapB (s1.getD i ' ')], ?_, ?_, ?_⟩
          · rw [projA_append, take_succ_getD s1 ' ' i (by omega)]
            simp [projA, hA]
          · rw [projB_append]; simpa [projB] using hB
          · rw [colScore_append, hs]
            simp only [colScore, dp_i_zero, dp_succ_zero]
            push_cast; ring
      | succ j ihj =>
          intro hi hj
          rw [dp_succ_succ]
          rcases max_choice (max (dp mt mis gp s1 s2 i j +
                (if s1.getD i ' ' = s2.getD j ' ' then mt else mis))
              (dp mt mis gp s1 s2 i (j+1) + gp))
              (dp mt mis gp s1 s2 (i+1) j + gp) with hm | hm <;> rw [hm]
          · rcases max_choice (dp mt mis gp s1 s2 i j +
                (if s1.getD i ' ' = s2.getD j ' ' then mt else mis))
                (dp mt mis gp s1 s2 i (j+1) + gp) with hm2 | hm2 <;> rw [hm2]
            · obtain ⟨cs, hA, hB, hs⟩ := ihi j (by omega) (by omega)
              refine ⟨cs ++ [Col.both (s1.getD i ' ') (s2.getD j ' ')], ?_, ?_, ?_⟩
              · rw [projA_append, take_succ_getD s1 ' ' i (by omega)]
                simp [projA, hA]
              · rw [projB_append, take_succ_getD s2 ' ' j (by omega)]
                simp [projB, hB]
              · rw [colScore_append, hs]
                simp only [colScore]
                ring
            · obtain ⟨cs, hA, hB, hs⟩ := ihi (j+1) (by omega) (by omega)
              refine ⟨cs ++ [Col.gapB (s1.getD i ' ')], ?_, ?_, ?_⟩
              · rw [projA_append, take_succ_getD s1 ' ' i (by omega)]
                simp [projA, hA]
              · rw [projB_append]; simpa [projB] using hB
              · rw [colScore_append, hs]
                simp only [colScore]
                ring
          · obtain ⟨cs, hA, hB, hs⟩ := ihj hi (by omega)
            refine ⟨cs ++ [Col.gapA (s2.getD j ' ')], ?_, ?_, ?_⟩
            · rw [projA_append]; simpa [projA] using hA
            · rw [projB_append, take_succ_getD s2 ' ' j (by omega)]
              simp [projB, hB]
            · rw [colScore_append, hs]
              simp only [colScore]
              ring

theorem removeGaps_append (xs ys : List Char) :
    removeGaps (xs ++ ys) = removeGaps xs ++ removeGaps ys := by
  simp [removeGaps, List.filter_append]

theorem removeGaps_gap_singleton : removeGaps ['-'] = [] := by
  simp [removeGaps]

theorem traceback_row_zero (mt mis gp : Int) (s1 s2 : List Char) :
    ∀ j, j ≤ s2.length →
      traceback mt mis gp s1 s2 0 j
        = some (List.replicate j '-', s2.take j) := by
  intro j hj
  induction j with
  | zero => rfl
  | succ j ihj =>
      show tb0 s2 (j+1) = _
      rw [tb0]
      have : tb0 s2 j = traceback mt mis gp s1 s2 0 j := rfl
      rw [this, ihj (by omega)]
      simp [take_succ_getD s2 ' ' j (by omega), List.replicate_succ']

theorem traceback_col_zero (mt mis gp : Int) (s1 s2 : List Char) :
    ∀ i, i ≤ s1.length →
      traceback mt mis gp s1 s2 i 0
        = some (s1.take i, List.replicate i '-') := by
  intro i hi
  induction i with
  | zero => rfl
  | succ i ihi =>
      show tbRow mt mis gp s1 s2 (traceback mt mis gp s1 s2 i) i 0 = _
      rw [tbRow, if_pos]
      · rw [ihi (by omega)]
        simp [take_succ_getD s1 ' ' i (by omega), List.replicate_succ']
      · rw [dp_succ_zero, dp_i_zero]; ring

theorem traceback_spec (mt mis gp : Int) (s1 s2 : List Char) :
    ∀ i j, i ≤ s1.length → j ≤ s2.length →
      ∃ a b, traceback mt mis gp s1 s2 i j = some (a, b) ∧
        a.length = b.length ∧
        removeGaps a = removeGaps (s1.take i) ∧
        removeGaps b = removeGaps (s2.take j) ∧
        ∀ p ∈ a.zip b, p.1 = '-' → p.2 = '-' → ('-' ∈ s1 ∨ '-' ∈ s2) := by
  intro i
  induction i with
  | zero =>
      intro j
      induction j with
      | zero =>
          intro _ _
          exact ⟨[], [], rfl, rfl, by simp [removeGaps], by simp [removeGaps],
            by simp⟩
      | succ j ihj =>
          intro h0 hj
          obtain ⟨a, b, heq, hlen, hga, hgb, hz⟩ := ihj h0 (by omega)
          refine ⟨a ++ ['-'], b ++ [s2.getD j ' '], ?_, ?_, ?_, ?_, ?_⟩
          · show tb0 s2 (j+1) = _
            rw [tb0]
            have : tb0 s2 j = traceback mt mis gp s1 s2 0 j := rfl
            rw [this, heq]
            rfl
          · simp [hlen]
          · rw [removeGaps_append, hga, removeGaps_gap_singleton, List.append_nil]
          · rw [take_succ_getD s2 ' ' j (by omega)]
            rw [removeGaps_append, removeGaps_append, hgb]
          · intro p hp
            rw [List.zip_append hlen] at hp
            rcases List.mem_append.mp hp with hp | hp
            · exact hz p hp
            · intro _ hp2
              have : p = ('-', s2.getD j ' ') := by simpa using hp
              right
              rw [this] at hp2
              simp only at hp2
              rw [← hp2]
              exact getD_mem s2 ' ' j (by omega)
  | succ i ihi =>
      intro j
      induction j with
      | zero =>
          intro hi _
          obtain ⟨a, b, heq, hlen, hga, hgb, hz⟩ := ihi 0 (by omega) (by omega)
          refine ⟨a ++ [s1.getD i ' '], b ++ ['-'], ?_, ?_, ?_, ?_, ?_⟩
          · show tbRow mt mis gp s1 s2 (traceback mt mis gp s1 s2 i) i 0 = _
            rw [tbRow, if_pos]
            · rw [heq]; rfl
            · rw [dp_succ_zero, dp_i_zero]; ring
          · simp [hlen]
          · rw [take_succ_getD s1 ' ' i (by omega)]
            rw [removeGaps_append, removeGaps_append, hga]
          · rw [removeGaps_append, hgb, removeGaps_gap_singleton, List.append_nil]
          · intro p hp
            rw [List.zip_append hlen] at hp
            rcases List.mem_append.mp hp with hp | hp
            · exact hz p hp
            · intro hp1 _
              have : p = (s1.getD i ' ', '-') := by simpa using hp
              left
              rw [this] at hp1
              simp only at hp1
              rw [← hp1]
              exact getD_mem s1 ' ' i (by omega)
      | succ j ihj =>
          intro hi hj
          by_cases hd : dp mt mis gp s1 s2 (i+1) (j+1) =
              dp mt mis gp s1 s2 i j +
                (if s1.getD i ' ' = s2.getD j ' ' then mt else mis)
          · obtain ⟨a, b, heq, hlen, hga, hgb, hz⟩ := ihi j (by omega) (by omega)
            refine ⟨a ++ [s1.getD i ' '], b ++ [s2.getD j ' '], ?_, ?_, ?_, ?_, ?_⟩
            · show tbRow mt mis gp s1 s2 (traceback mt mis gp s1 s2 i) i (j+1) = _
              rw [tbRow, if_pos hd, heq]
              rfl
            · simp [hlen]
            · rw [take_succ_getD s1 ' ' i (by omega)]
              rw [removeGaps_append, removeGaps_append, hga]
            · rw [take_succ_getD s2 ' ' j (by omega)]
              rw [removeGaps_append, removeGaps_append, hgb]
            · intro p hp
              rw [List.zip_append hlen] at hp
              rcases List.mem_append.mp hp with hp | hp
              · exact hz p hp
              · intro hp1 _
                have : p = (s1.getD i ' ', s2.getD j ' ') := by simpa using hp
                left
                rw [this] at hp1
                simp only at hp1
                rw [← hp1]
                exact getD_mem s1 ' ' i (by omega)
          · by_cases hu : dp mt mis gp s1 s2 (i+1) (j+1) =
                dp mt mis gp s1 s2 i (j+1) + gp
            · obtain ⟨a, b, heq, hlen, hga, hgb, hz⟩ :=
                ihi (j+1) (by omega) (by omega)
              refine ⟨a ++ [s1.getD i ' '], b ++ ['-'], ?_, ?_, ?_, ?_, ?_⟩
              · show tbRow mt mis gp s1 s2 (traceback mt mis gp s1 s2 i) i (j+1) = _
                rw [tbRow, if_neg hd, if_pos hu, heq]
                rfl
              · simp [hlen]
              · rw [take_succ_getD s1 ' ' i (by omega)]
                rw [removeGaps_append, removeGaps_append, hga]
              · rw [removeGaps_append, hgb, removeGaps_gap_singleton, List.append_nil]
              · intro p hp
                rw [List.zip_append hlen] at hp
                rcases List.mem_append.mp hp with hp | hp
                · exact hz p hp
                · intro hp1 _
                  have : p = (s1.getD i ' ', '-') := by simpa using hp
                  left
                  rw [this] at hp1
                  simp only at hp1
                  rw [← hp1]
                  exact getD_mem s1 ' ' i (by omega)
            · obtain ⟨a, b, heq, hlen, hga, hgb, hz⟩ := ihj hi (by omega)
              refine ⟨a ++ ['-'], b ++ [s2.getD j ' '], ?_, ?_, ?_, ?_, ?_⟩
              · show tbRow mt mis gp s1 s2 (traceback mt mis gp s1 s2 i) i (j+1) = _
                rw [tbRow, if_neg hd, if_neg hu]
                have : tbRow mt mis gp s1 s2 (traceback mt mis gp s1 s2 i) i j
                    = traceback mt mis gp s1 s2 (i+1) j := rfl
                rw [this, heq]
                rfl
              · simp [hlen]
              · rw [removeGaps_append, hga, removeGaps_gap_singleton, List.append_nil]
              · rw [take_succ_getD s2 ' ' j (by omega)]
                rw [removeGaps_append, removeGaps_append, hgb]
              · intro p hp
                rw [List.zip_append hlen] at hp
                rcases List.mem_append.mp hp with hp | hp
                · exact hz p hp
                · intro _ hp2
                  have : p = ('-', s2.getD j ' ') := by simpa using hp
                  right
                  rw [this] at hp2
                  simp only at hp2
                  rw [← hp2]
                  exact getD_mem s2 ' ' j (by omega)


theorem dp_symm (mt mis gp : Int) (s1 s2 : List Char) :
    ∀ i j, dp mt mis gp s1 s2 i j = dp mt mis gp s2 s1 j i := by
  intro i
  induction i with
  | zero =>
      intro j
      rw [dp_zero, dp_i_zero]
  | succ i ihi =>
      intro j
      induction j with
      | zero => rw [dp_i_zero, dp_zero]
      | succ j ihj =>
          rw [dp_succ_succ, dp_succ_succ, ← ihi j, ← ihi (j+1), ← ihj]
          have hc : (if s2.getD j ' ' = s1.getD i ' ' then mt else mis)
              = (if s1.getD i ' ' = s2.getD j ' ' then mt else mis) := by
            by_cases h : s1.getD i ' ' = s2.getD j ' '
            · rw [if_pos h, if_pos h.symm]
            · rw [if_neg h, if_neg (fun hh => h hh.symm)]
          rw [hc, max_assoc, max_comm (dp mt mis gp s1 s2 i (j+1) + gp),
            ← max_assoc]

theorem removeGaps_eq_self (l : List Char) (h : '-' ∉ l) : removeGaps l = l := by
  rw [removeGaps, List.filter_eq_self]
  intro a ha
  simp only [bne_iff_ne, ne_eq]
  intro he
  exact h (he ▸ ha)

theorem foldl_max_init_le (l : List Nat) : ∀ a : Nat, a ≤ l.foldl max a := by
  induction l with
  | nil => intro a; simp
  | cons x xs ih =>
      intro a
      calc a ≤ max a x := le_max_left a x
        _ ≤ (xs.foldl max (max a x)) := ih (max a x)

theorem le_foldl_max (l : List Nat) : ∀ a : Nat, ∀ x ∈ l, x ≤ l.foldl max a := by
  induction l with
  | nil => intro a x hx; simp at hx
  | cons y ys ih =>
      intro a x hx
      rcases List.mem_cons.mp hx with h | h
      · subst h
        calc x ≤ max a x := le_max_right a x
          _ ≤ ys.foldl max (max a x) := foldl_max_init_le ys (max a x)
      · exact ih (max a y) x h


theorem insertAt_length (s : List Char) (i : Nat) :
    (insertAt s i).length = s.length + 1 := by
  simp [insertAt]
  omega

theorem updateOthers_length (i idx : Nat) :
    ∀ (b : List (List Char)) (start : Nat),
      (updateOthers i idx start b).length = b.length := by
  intro b
  induction b with
  | nil => intro start; rfl
  | cons r rs ih => intro start; simp [updateOthers, ih]

theorem updateOthers_getD (i idx : Nat) :
    ∀ (b : List (List Char)) (start k : Nat), k < b.length →
      (updateOthers i idx start b).getD k []
        = if start + k = idx then b.getD k [] else insertAt (b.getD k []) i := by
  intro b
  induction b with
  | nil => intro start k hk; simp at hk
  | cons r rs ih =>
      intro start k hk
      cases k with
      | zero => simp [updateOthers, List.getD_cons_zero]
      | succ k =>
          simp only [updateOthers, List.getD_cons_succ]
          rw [ih (start+1) k (by simpa using hk)]
          have harith : start + 1 + k = start + (k+1) := by omega
          rw [harith]

theorem propagateAux_length (al : List Char) (idx : Nat) :
    ∀ (is : List Nat) (b : List (List Char)),
      (propagateAux al idx is b).length = b.length := by
  intro is
  induction is with
  | nil => intro b; rfl
  | cons i is ih =>
      intro b
      rw [propagateAux, ih]
      by_cases h : al.getD i ' ' = '-'
      · rw [if_pos h, updateOthers_length]
      · rw [if_neg h]

theorem propagateAux_getD_length (al : List Char) (idx : Nat) :
    ∀ (is : List Nat) (b : List (List Char)) (k : Nat),
      k < b.length → k ≠ idx →
      ((propagateAux al idx is b).getD k []).length
        = (b.getD k []).length
            + is.countP (fun i => decide (al.getD i ' ' = '-')) := by
  intro is
  induction is with
  | nil => intro b k hk _; simp [propagateAux]
  | cons i is ih =>
      intro b k hk hne
      rw [propagateAux]
      by_cases h : al.getD i ' ' = '-'
      · rw [if_pos h]
        rw [ih (updateOthers i idx 0 b) k
            (by rw [updateOthers_length]; exact hk) hne]
        rw [updateOthers_getD i idx b 0 k hk, if_neg (by simpa using hne)]
        rw [insertAt_length, List.countP_cons]
        simp only [h, decide_True, if_true]
        omega
      · rw [if_neg h]
        rw [ih b k hk hne, List.countP_cons]
        have hd : decide (al.getD i ' ' = '-') = false := by
          simpa using h
        rw [hd]
        simp

theorem count_range_getD (al : List Char) :
    (List.range al.length).countP (fun i => decide (al.getD i ' ' = '-'))
      = al.count '-' := by
  induction al using List.reverseRecOn with
  | nil => rfl
  | append_singleton al c ih =>
      have hlen : (al ++ [c]).length = al.length + 1 := by simp
      rw [hlen, List.range_succ, List.countP_append]
      have h1 : (List.range al.length).countP
          (fun i => decide ((al ++ [c]).getD i ' ' = '-'))
          = (List.range al.length).countP
              (fun i => decide (al.getD i ' ' = '-')) := by
        apply List.countP_congr
        intro x hx
        rw [List.getD_append al [c] ' ' x (List.mem_range.mp hx)]
      rw [h1, ih]
      have h2 : (al ++ [c]).getD al.length ' ' = c := by
        rw [List.getD_append_right al [c] ' ' al.length le_rfl]
        simp
      rw [List.count_append]
      simp [List.countP_cons, h2, List.count_singleton]

theorem msa_cons_eq (mt mis gp : Int) (s0 : List Char) (rest : List (List Char)) :
    msa (s0 :: rest) mt mis gp
      = (rest.foldlM (fun b sq => msaStep mt mis gp b sq) [s0]).map
          (fun block =>
            (sumPairScores mt mis gp
                (block.map (fun r => ljust r ((block.map List.length).foldl max 0))),
             block.map (fun r => ljust r ((block.map List.length).foldl max 0)))) := by
  rfl


/-- Claim C1: for every scoring triple and pair of sequences, `dp[i][j]` is
the greatest score of any global alignment of the first `i` symbols of A
against the first `j` symbols of B, and the score returned by
`needleman_wunsch` is the greatest score over all global alignments of A
and B. -/
theorem nw_dp_isGreatest (mt mis gp : Int) (s1 s2 : List Char) (i j : Nat)
    (sc : Int) (a b : List Char)
    (hi : i ≤ s1.length) (hj : j ≤ s2.length)
    (hnw : needleman_wunsch s1 s2 mt mis gp = some (sc, a, b)) :
    IsGreatest (alignScores mt mis gp (s1.take i) (s2.take j))
        (dp mt mis gp s1 s2 i j) ∧
    IsGreatest (alignScores mt mis gp s1 s2) sc := by
  have key : ∀ i' j', i' ≤ s1.length → j' ≤ s2.length →
      IsGreatest (alignScores mt mis gp (s1.take i') (s2.take j'))
        (dp mt mis gp s1 s2 i' j') := by
    intro i' j' hi' hj'
    constructor
    · obtain ⟨cs, h1, h2, h3⟩ := dp_mem_alignScores mt mis gp s1 s2 i' j' hi' hj'
      exact ⟨cs, h1, h2, h3⟩
    · rintro x ⟨cs, h1, h2, h3⟩
      rw [← h3]
      exact colScore_le_dp mt mis gp s1 s2 cs i' j' hi' hj' h1 h2
  refine ⟨key i j hi hj, ?_⟩
  have hsc : sc = dp mt mis gp s1 s2 s1.length s2.length := by
    rw [needleman_wunsch] at hnw
    cases htb : traceback mt mis gp s1 s2 s1.length s2.length with
    | none => rw [htb] at hnw; simp at hnw
    | some p =>
        rw [htb] at hnw
        simp only [Option.map_some', Option.some.injEq, Prod.mk.injEq] at hnw
        exact hnw.1.symm
  rw [hsc]
  have hfull := key s1.length s2.length le_rfl le_rfl
  simpa [List.take_length] using hfull

/-- Witness for `nw_dp_isGreatest` at a concrete input. -/
theorem nw_dp_isGreatest_witness :
    IsGreatest (alignScores 1 (-1) (-2) (['A','C'].take 1) (['A'].take 1))
        (dp 1 (-1) (-2) ['A','C'] ['A'] 1 1) ∧
    IsGreatest (alignScores 1 (-1) (-2) ['A','C'] ['A']) (-1) :=
  nw_dp_isGreatest 1 (-1) (-2) ['A','C'] ['A'] 1 1 (-1) ['A','C'] ['A','-']
    (by decide) (by decide) (by decide)

/-- Counterexample to claim C5 as stated: the score that
`needleman_wunsch("ACGT", "AGT", 1, -1, -2)` returns is not 0 (the
alignment "ACGT" / "A-GT" scores 1 - 2 + 1 + 1 = 1). -/
theorem nw_acgt_score_cex :
    (needleman_wunsch ['A','C','G','T'] ['A','G','T'] 1 (-1) (-2)).map
        (fun r => r.1) ≠ some 0 := by decide

/-- Claim C5 (amended): `needleman_wunsch("ACGT", "AGT", 1, -1, -2)`
returns score 1 with the optimal alignment pair "ACGT" / "A-GT". -/
theorem nw_acgt_value :
    needleman_wunsch ['A','C','G','T'] ['A','G','T'] 1 (-1) (-2)
      = some (1, ['A','C','G','T'], ['A','-','G','T']) := by decide

/-- Claim C6: aligning a sequence against the empty sequence yields score
`len(A) * gap` and an all-gap partner row, in both argument orders. -/
theorem nw_empty_seq (mt mis gp : Int) (s : List Char) :
    needleman_wunsch s [] mt mis gp
      = some ((s.length : Int) * gp, s, List.replicate s.length '-') ∧
    needleman_wunsch [] s mt mis gp
      = some ((s.length : Int) * gp, List.replicate s.length '-', s) := by
  constructor
  · rw [needleman_wunsch]
    simp only [List.length_nil]
    rw [traceback_col_zero mt mis gp s [] s.length le_rfl]
    simp [List.take_length, dp_i_zero]
  · rw [needleman_wunsch]
    simp only [List.length_nil]
    rw [traceback_row_zero mt mis gp [] s s.length le_rfl]
    simp [List.take_length, dp_zero]

/-- Claim C7: the two aligned outputs of `needleman_wunsch` have equal
length, and deleting all gap symbols from them reproduces the two inputs
exactly, for gap-free inputs. -/
theorem nw_roundtrip (mt mis gp : Int) (s1 s2 : List Char) (sc : Int)
    (a b : List Char) (h1 : '-' ∉ s1) (h2 : '-' ∉ s2)
    (hnw : needleman_wunsch s1 s2 mt mis gp = some (sc, a, b)) :
    a.length = b.length ∧ removeGaps a = s1 ∧ removeGaps b = s2 := by
  obtain ⟨a0, b0, heq, hlen, hga, hgb, -⟩ :=
    traceback_spec mt mis gp s1 s2 s1.length s2.length le_rfl le_rfl
  rw [needleman_wunsch, heq] at hnw
  simp only [Option.map_some', Option.some.injEq, Prod.mk.injEq] at hnw
  obtain ⟨-, hA, hB⟩ := hnw
  rw [← hA, ← hB]
  refine ⟨hlen, ?_, ?_⟩
  · rw [hga, List.take_length, removeGaps_eq_self s1 h1]
  · rw [hgb, List.take_length, removeGaps_eq_self s2 h2]

/-- Witness for `nw_roundtrip` at a concrete input. -/
theorem nw_roundtrip_witness :
    (['A','C'] : List Char).length = (['A','-'] : List Char).length ∧
    removeGaps ['A','C'] = ['A','C'] ∧ removeGaps ['A','-'] = ['A'] :=
  nw_roundtrip 1 (-1) (-2) ['A','C'] ['A'] (-1) ['A','C'] ['A','-']
    (by decide) (by decide) (by decide)

/-- Counterexample to claim C8 as stated: at ("A", "C") with scoring
(match 1, mismatch -3, gap -1) the optimum -2 is reached only by two gap
columns; the tie between the up and left moves is broken toward consuming
the first argument in both calls, so the outputs of the two calls are not
row-swaps of each other. -/
theorem nw_swap_rows_cex :
    (needleman_wunsch ['A'] ['C'] 1 (-3) (-1)).map (fun r => (r.2.1, r.2.2))
      ≠ (needleman_wunsch ['C'] ['A'] 1 (-3) (-1)).map
          (fun r => (r.2.2, r.2.1)) := by decide

/-- Claim C8 (amended): the score returned by `needleman_wunsch(A, B)`
equals the score returned by `needleman_wunsch(B, A)`; the aligned output
rows, however, need not correspond under swapping (see the
counterexample). -/
theorem nw_score_symm (mt mis gp : Int) (s1 s2 : List Char) :
    (needleman_wunsch s1 s2 mt mis gp).map (fun r => r.1)
      = (needleman_wunsch s2 s1 mt mis gp).map (fun r => r.1) := by
  obtain ⟨a, b, heq, -, -, -, -⟩ :=
    traceback_spec mt mis gp s1 s2 s1.length s2.length le_rfl le_rfl
  obtain ⟨a2, b2, heq2, -, -, -, -⟩ :=
    traceback_spec mt mis gp s2 s1 s2.length s1.length le_rfl le_rfl
  rw [needleman_wunsch, needleman_wunsch, heq, heq2]
  simp [dp_symm mt mis gp s1 s2 s1.length s2.length]

/-- Claim C9: for every pair of sequences and every integer scoring
triple, `needleman_wunsch` returns a result (the traceback terminates,
reaching (0,0), and never takes the branch that would misread `seq2[-1]`);
moreover at every interior cell `(i+1, j+1)` the value `dp[i][j]` is
reconstructed by at least one of the three moves, so when the diagonal and
up tests of the traceback both fail the final else branch's
`dp[i][j] == dp[i][j-1] + gap` holds and `seq2[j-1]` is read only with
`j > 0`. -/
theorem nw_total (mt mis gp : Int) (s1 s2 : List Char) (i j : Nat) :
    (needleman_wunsch s1 s2 mt mis gp).isSome = true ∧
    (dp mt mis gp s1 s2 (i+1) (j+1) =
        dp mt mis gp s1 s2 i j +
          (if s1.getD i ' ' = s2.getD j ' ' then mt else mis) ∨
      dp mt mis gp s1 s2 (i+1) (j+1) = dp mt mis gp s1 s2 i (j+1) + gp ∨
      dp mt mis gp s1 s2 (i+1) (j+1) = dp mt mis gp s1 s2 (i+1) j + gp) := by
  constructor
  · obtain ⟨a, b, heq, -, -, -, -⟩ :=
      traceback_spec mt mis gp s1 s2 s1.length s2.length le_rfl le_rfl
    rw [needleman_wunsch, heq]
    rfl
  · have h3 := dp_succ_succ mt mis gp s1 s2 i j
    rcases max_choice (max (dp mt mis gp s1 s2 i j +
          (if s1.getD i ' ' = s2.getD j ' ' then mt else mis))
        (dp mt mis gp s1 s2 i (j+1) + gp))
        (dp mt mis gp s1 s2 (i+1) j + gp) with hm | hm
    · rw [hm] at h3
      rcases max_choice (dp mt mis gp s1 s2 i j +
            (if s1.getD i ' ' = s2.getD j ' ' then mt else mis))
          (dp mt mis gp s1 s2 i (j+1) + gp) with hm2 | hm2
      · rw [hm2] at h3; exact Or.inl h3
      · rw [hm2] at h3; exact Or.inr (Or.inl h3)
    · rw [hm] at h3; exact Or.inr (Or.inr h3)

/-- Claim C10: for gap-free inputs, no column of the aligned output pair
holds a gap in both rows. -/
theorem nw_no_double_gap (mt mis gp : Int) (s1 s2 : List Char) (sc : Int)
    (a b : List Char) (h1 : '-' ∉ s1) (h2 : '-' ∉ s2)
    (hnw : needleman_wunsch s1 s2 mt mis gp = some (sc, a, b))
    (p : Char × Char) (hp : p ∈ a.zip b) :
    ¬(p.1 = '-' ∧ p.2 = '-') := by
  rintro ⟨q1, q2⟩
  obtain ⟨a0, b0, heq, -, -, -, hz⟩ :=
    traceback_spec mt mis gp s1 s2 s1.length s2.length le_rfl le_rfl
  rw [needleman_wunsch, heq] at hnw
  simp only [Option.map_some', Option.some.injEq, Prod.mk.injEq] at hnw
  obtain ⟨-, hA, hB⟩ := hnw
  rw [← hA, ← hB] at hp
  rcases hz p hp q1 q2 with h | h
  · exact h1 h
  · exact h2 h

/-- Witness for `nw_no_double_gap` at a concrete input. -/
theorem nw_no_double_gap_witness :
    ¬((('A','A') : Char × Char).1 = '-' ∧ (('A','A') : Char × Char).2 = '-') :=
  nw_no_double_gap 1 (-1) (-2) ['A','C'] ['A'] (-1) ['A','C'] ['A','-']
    (by decide) (by decide) (by decide) ('A','A') (by decide)

/-- Counterexample to claim C2: `msa(["A"])` raises nothing and returns the
degenerate result `(0, ["A"])` — there is no `InsufficientInputError`
anywhere in the code, and `msa` performs no input-count check. -/
theorem msa_singleton_cex : msa [['A']] 1 (-1) (-2) = some (0, [['A']]) := by
  decide

/-- Claim C2 (amended): `msa` performs no input-count validation: on the
empty list it fails with an uncaught `IndexError` from `sequences[0]`
(modelled `none`), and on any singleton list it returns the partial result
`(0, [s])` instead of signalling an error.  Only the out-of-scope CLI
helper `get_user_sequences` checks for fewer than two sequences. -/
theorem msa_no_input_check (s : List Char) (mt mis gp : Int) :
    msa [] mt mis gp = none ∧ msa [s] mt mis gp = some (0, [s]) := by
  refine ⟨rfl, ?_⟩
  rw [msa_cons_eq]
  simp [List.foldlM_nil, ljust, sumPairScores]

/-- Counterexample to claim C3: running the progressive loop of `msa` on
["C", "AC", "G"], after the second iteration the working block is
["-C", "-AC", "-G"], whose rows have lengths 2, 3, 2 — not all identical.
(The pre-existing gap of row 0 is propagated again into row 1.) -/
theorem msa_block_unequal_cex :
    List.foldlM (fun b sq => msaStep 1 (-1) (-2) b sq) [['C']]
        [['A','C'], ['G']]
      = some [['-','C'], ['-','A','C'], ['-','G']] ∧
    (['-','A','C'] : List Char).length ≠ (['-','C'] : List Char).length := by
  decide

/-- Claim C3 (amended): during the progressive loop, rows can have unequal
lengths (see the counterexample); the equal-length invariant holds only
for the block `msa` finally returns, after the right-padding step. -/
theorem msa_padded_equal_lengths (sequences : List (List Char))
    (mt mis gp : Int) (sc : Int) (block : List (List Char))
    (h : msa sequences mt mis gp = some (sc, block)) :
    (block.all fun r => r.length == (block.headD []).length) = true := by
  cases sequences with
  | nil => simp [msa] at h
  | cons s0 rest =>
      rw [msa_cons_eq] at h
      cases hfold : rest.foldlM (fun b sq => msaStep mt mis gp b sq) [s0] with
      | none => rw [hfold] at h; simp at h
      | some b =>
          rw [hfold] at h
          simp only [Option.map_some', Option.some.injEq, Prod.mk.injEq] at h
          have hblock : block = b.map (fun r =>
              ljust r ((b.map List.length).foldl max 0)) := h.2.symm
          have hlen : ∀ r ∈ block,
              r.length = (b.map List.length).foldl max 0 := by
            intro r hr
            rw [hblock] at hr
            obtain ⟨r0, hr0, hmap⟩ := List.mem_map.mp hr
            have hle : r0.length ≤ (b.map List.length).foldl max 0 :=
              le_foldl_max (b.map List.length) 0 r0.length
                (List.mem_map_of_mem List.length hr0)
            rw [← hmap]
            simp only [ljust, List.length_append, List.length_replicate]
            omega
          cases hb : block with
          | nil => simp
          | cons p ps =>
              rw [List.all_eq_true]
              intro x hx
              rw [beq_iff_eq]
              rw [hb] at hlen
              rw [hlen x hx, List.headD_cons,
                hlen p (List.mem_cons_self p ps)]

/-- Witness for `msa_padded_equal_lengths` at a concrete input. -/
theorem msa_padded_equal_lengths_witness :
    (([['A'],['A']] : List (List Char)).all
        fun r => r.length == (([['A'],['A']] : List (List Char)).headD []).length)
      = true :=
  msa_padded_equal_lengths [['A'],['A']] 1 (-1) (-2) 1 [['A'],['A']]
    (by decide)

/-- Counterexample to claim C4: with block ["-C", "AC"] and aligned first
row "-C" — identical to the current row 0, so it has no newly introduced
gap — the claim says every other row gains no gap; the code nevertheless
inserts a gap into row 1 at the pre-existing gap position of row 0. -/
theorem propagate_preexisting_gap_cex :
    propagate_gaps_to_msa [['-','C'], ['A','C']] ['-','C'] 0
      = [['-','C'], ['-','A','C']] ∧
    (['-','A','C'] : List Char) ≠ ['A','C'] := by decide

/-- Claim C4 (amended): gap propagation scans the aligned first row in
increasing position order and inserts a gap into every other existing row
at every position where the aligned row holds a gap — including the
pre-existing gaps of row 0 — so each other row gains exactly the total
number of gap symbols of the aligned row, and row `idx` is replaced by the
aligned row. -/
theorem propagate_gaps_spec (block : List (List Char)) (al : List Char)
    (idx j : Nat) (hidx : idx < block.length) (hj : j < block.length)
    (hne : j ≠ idx) :
    (propagate_gaps_to_msa block al idx).getD idx [] = al ∧
    ((propagate_gaps_to_msa block al idx).getD j []).length
      = (block.getD j []).length + al.count '-' := by
  constructor
  · rw [propagate_gaps_to_msa, List.getD_eq_getElem?_getD,
      List.getElem?_set_self (by rw [propagateAux_length]; exact hidx)]
    rfl
  · rw [propagate_gaps_to_msa, List.getD_eq_getElem?_getD,
      List.getElem?_set_ne (fun hh => hne hh.symm),
      ← List.getD_eq_getElem?_getD,
      propagateAux_getD_length al idx (List.range al.length) block j hj hne,
      count_range_getD]

/-- Witness for `propagate_gaps_spec` at a concrete input. -/
theorem propagate_gaps_spec_witness :
    (propagate_gaps_to_msa [['-','C'], ['A','C']] ['-','C'] 0).getD 0 []
        = ['-','C'] ∧
    ((propagate_gaps_to_msa [['-','C'], ['A','C']] ['-','C'] 0).getD 1 []).length
      = (([['-','C'], ['A','C']] : List (List Char)).getD 1 []).length
          + (['-','C'] : List Char).count '-' :=
  propagate_gaps_spec [['-','C'], ['A','C']] ['-','C'] 0 1
    (by decide) (by decide) (by decide)

end CustomMsa

